import Mathlib

/-!
Shallow embedding of the transcript-segmentation core of the
Audio-Processing-Pipeline repository (src/scripts/pipeline.py and
src/scripts/pipeline_no_ffmpeg.py).

Modelling conventions:
* Python `str` is modelled as `List Char`.
* Python `float` timestamps are modelled as `ℚ` (the properties at stake are
  exact arithmetic comparisons, truncation and rounding).
* Python `int` is modelled as `ℤ` (and ordinal loop counters as `ℕ`).
* Fallible code paths (list indexing, per-clip export failures) are modelled
  with `Option`, with `none` standing for a raised exception.
-/

/-- Python whitespace class: the characters matched by the regex class
backslash-s on `str` patterns (the Unicode whitespace characters), which is
also the set stripped by `str.strip()`. -/
def pySpaceChars : List Char :=
  ['\t', '\n', '\x0b', '\x0c', '\r', '\x1c', '\x1d', '\x1e', '\x1f', ' ',
   '\u0085', '\u00A0', '\u1680', '\u2000', '\u2001', '\u2002', '\u2003',
   '\u2004', '\u2005', '\u2006', '\u2007', '\u2008', '\u2009', '\u200A',
   '\u2028', '\u2029', '\u202F', '\u205F', '\u3000']

/-- Whether a character is Python whitespace. -/
def isSpace (c : Char) : Bool := c ∈ pySpaceChars

/-- Abbreviation turning a string literal into the `List Char` it denotes. -/
def cs (s : String) : List Char := s.data

/-- Source: `SENTENCE_END_CHARS = set(list(".!?。！？…"))` (pipeline.py line 12). -/
def SENTENCE_END_CHARS : List Char := ['.', '!', '?', '。', '！', '？', '…']

/-- The CJK terminal punctuation captured by the second regex of
`normalize_spacing` (the group in the pattern, the four characters
fullwidth period, fullwidth bang, fullwidth question mark, ellipsis). -/
def cjkPunct : List Char := ['。', '！', '？', '…']

/-- Source: `re.sub(r"\s+", " ", s)`: replace every maximal run of whitespace by a
single ASCII space.  The two-head recursion keeps only the last character of
each run (as a space). -/
def collapseWs : List Char → List Char
  | [] => []
  | [c] => if isSpace c then [' '] else [c]
  | c1 :: c2 :: rest =>
    if isSpace c1 && isSpace c2 then collapseWs (c2 :: rest)
    else (if isSpace c1 then ' ' else c1) :: collapseWs (c2 :: rest)

/-- Source: `str.lstrip()`. -/
def lstrip (l : List Char) : List Char := l.dropWhile isSpace

/-- Source: `str.rstrip()`. -/
def rstrip (l : List Char) : List Char := (l.reverse.dropWhile isSpace).reverse

/-- Source: `str.strip()`. -/
def pyStrip (l : List Char) : List Char := rstrip (lstrip l)

/-- Worker for the substitution `re.sub(r"\s+([。！？…])", r"\1", s)`:
`pending` holds the current (reversed) run of whitespace whose fate is not
yet decided; a run followed by a CJK terminal punctuation character is
dropped, any other run is kept verbatim. -/
def rmSpGo (pending : List Char) : List Char → List Char
  | [] => pending.reverse
  | c :: rest =>
    if isSpace c then rmSpGo (c :: pending) rest
    else if c ∈ cjkPunct then c :: rmSpGo [] rest
    else pending.reverse ++ c :: rmSpGo [] rest

/-- Source: `re.sub(r"\s+([。！？…])", r"\1", s)`: delete whitespace immediately
preceding a CJK terminal punctuation character. -/
def rmSpBefore (l : List Char) : List Char := rmSpGo [] l

/-- Source: `normalize_spacing` (pipeline.py lines 118-123): collapse whitespace runs
to one space, strip both ends, then remove whitespace before CJK terminal
punctuation. -/
def normalize_spacing (s : List Char) : List Char :=
  rmSpBefore (pyStrip (collapseWs s))

/-- A recognized word: `{"text": str, "start": float, "end": float}`.
(`end` is a reserved word in Lean, hence the field name `end_`.) -/
structure Word where
  text : List Char
  start : ℚ
  end_ : ℚ
deriving DecidableEq

/-- A sentence record: `{"text": str, "start_time": float, "end_time": float}`. -/
structure Sentence where
  text : List Char
  start_time : ℚ
  end_time : ℚ
deriving DecidableEq

/-- Source: `"".join(x["text"] for x in acc)`. -/
def accumText (acc : List Word) : List Char := (acc.map Word.text).flatten

/-- Source: `should_close_sentence` (pipeline.py lines 65-74): close on terminal
punctuation, else on a gap of at least `gap_threshold` seconds to the next
word, else keep accumulating. -/
def should_close_sentence (accum_text : List Char) (current_word : Word)
    (next_word : Option Word) (gap_threshold : ℚ) : Bool :=
  let gapClose : Bool :=
    match next_word with
    | some nw => decide (gap_threshold ≤ nw.start - current_word.end_)
    | none => false
  -- `if accum_text and accum_text[-1] in SENTENCE_END_CHARS: return True`
  match accum_text.getLast? with
  | some c => if c ∈ SENTENCE_END_CHARS then true else gapClose
  | none => gapClose

/-- Closing the accumulator (pipeline.py lines 100-106 and 109-114):
`start = acc[0]["start"]; end = acc[-1]["end"]; text = normalize_spacing(...)`,
and the sentence is emitted only when `text.strip()` is non-empty.
`none` means the group is discarded. -/
def emitAcc? (acc : List Word) : Option Sentence :=
  match acc with
  | [] => none
  | a :: t =>
    let text := normalize_spacing (accumText (a :: t))
    if pyStrip text = [] then none
    else some ⟨text, a.start, (t.getLastD a).end_⟩

/-- The boolean `need_close` of the loop body (pipeline.py lines 91-98):
`should_close_sentence(...) or len(accum_text) >= max_chars`. -/
def needClose (gap_threshold : ℚ) (max_chars : ℤ) (acc' : List Word)
    (w : Word) (next_w : Option Word) : Bool :=
  should_close_sentence (accumText acc') w next_w gap_threshold
    || decide (max_chars ≤ (accumText acc').length)

/-- The accumulation loop of `words_to_sentences` (pipeline.py lines 85-114),
with the pending accumulator as an explicit argument; the nil case is the
post-loop flush (`if acc: ...`). -/
def wtsGo (gap_threshold : ℚ) (max_chars : ℤ) (acc : List Word) :
    List Word → List Sentence
  | [] => (emitAcc? acc).toList
  | w :: rest =>
    let acc' := acc ++ [w]
    if needClose gap_threshold max_chars acc' w rest.head? then
      (emitAcc? acc').toList ++ wtsGo gap_threshold max_chars [] rest
    else
      wtsGo gap_threshold max_chars acc' rest
termination_by structural l => l

/-- Source: `words_to_sentences` (pipeline.py lines 76-116). -/
def words_to_sentences (words : List Word) (gap_threshold : ℚ)
    (max_chars : ℤ) : List Sentence :=
  match words with
  | [] => []
  | _ => wtsGo gap_threshold max_chars [] words

example :
    words_to_sentences
      [⟨cs ("He"), 0, 1/2⟩, ⟨cs ("llo"), 3, 16/5⟩] (4/5) 80 =
      [⟨cs ("He"), 0, 1/2⟩, ⟨cs ("llo"), 3, 16/5⟩] := by with_unfolding_all decide

example :
    words_to_sentences [⟨cs ("Hi"), 0, 1⟩, ⟨cs ("."), 1, 2⟩] 5 80 =
      [⟨cs ("Hi."), 0, 2⟩] := by with_unfolding_all decide

example : normalize_spacing (cs ("  a   b 。 c ")) = cs ("a b。 c") := by with_unfolding_all decide

/-- The sort key ordering of `words.sort(key=lambda w: (w["start"], w["end"]))`
(pipeline.py line 62): lexicographic on the pair (start, end). -/
def wordLE (a b : Word) : Prop :=
  a.start < b.start ∨ (a.start = b.start ∧ a.end_ ≤ b.end_)

instance : DecidableRel wordLE := fun a b => by
  unfold wordLE; infer_instance

/-- Python `list.sort` is a stable comparison sort; modelled as the stable
insertion sort on the key ordering. -/
def sortWords (ws : List Word) : List Word := List.insertionSort wordLE ws

instance : IsTotal Word wordLE :=
  ⟨fun a b => by
    unfold wordLE
    rcases lt_trichotomy a.start b.start with h | h | h
    · exact Or.inl (Or.inl h)
    · rcases le_total a.end_ b.end_ with he | he
      · exact Or.inl (Or.inr ⟨h, he⟩)
      · exact Or.inr (Or.inr ⟨h.symm, he⟩)
    · exact Or.inr (Or.inl h)⟩

instance : IsTrans Word wordLE :=
  ⟨fun a b c hab hbc => by
    unfold wordLE at hab hbc ⊢
    rcases hab with h1 | ⟨h1, h1e⟩ <;> rcases hbc with h2 | ⟨h2, h2e⟩
    · exact Or.inl (lt_trans h1 h2)
    · exact Or.inl (h2 ▸ h1)
    · exact Or.inl (h1 ▸ h2)
    · exact Or.inr ⟨h1.trans h2, le_trans h1e h2e⟩⟩

/-- Instrumented accumulation loop: identical control flow to `wtsGo`, but
collecting the closed accumulator groups (emitted or discarded) instead of
the sentences. -/
def wtsGroups (gap_threshold : ℚ) (max_chars : ℤ) (acc : List Word) :
    List Word → List (List Word)
  | [] => if acc.isEmpty then [] else [acc]
  | w :: rest =>
    let acc' := acc ++ [w]
    if needClose gap_threshold max_chars acc' w rest.head? then
      acc' :: wtsGroups gap_threshold max_chars [] rest
    else
      wtsGroups gap_threshold max_chars acc' rest
termination_by structural l => l

/-- The partition of the input words into closed accumulator groups induced
by `words_to_sentences`. -/
def segmentGroups (words : List Word) (gap_threshold : ℚ)
    (max_chars : ℤ) : List (List Word) :=
  match words with
  | [] => []
  | _ => wtsGroups gap_threshold max_chars [] words

/-- Closing the accumulator with the list indexing `acc[0]` / `acc[-1]` made
fallible: `none` models an IndexError. -/
def emitAccChecked (acc : List Word) : Option (List Sentence) :=
  match acc.head?, acc.getLast? with
  | some a, some b =>
    let text := normalize_spacing (accumText acc)
    some (if pyStrip text = [] then [] else [⟨text, a.start, b.end_⟩])
  | _, _ => none

/-- The accumulation loop with fallible indexing; `none` models an uncaught
exception escaping the loop. -/
def wtsGoOpt (gap_threshold : ℚ) (max_chars : ℤ) (acc : List Word) :
    List Word → Option (List Sentence)
  | [] => if acc.isEmpty then some [] else emitAccChecked acc
  | w :: rest =>
    let acc' := acc ++ [w]
    if needClose gap_threshold max_chars acc' w rest.head? then do
      let s ← emitAccChecked acc'
      let r ← wtsGoOpt gap_threshold max_chars [] rest
      some (s ++ r)
    else
      wtsGoOpt gap_threshold max_chars acc' rest
termination_by structural l => l

/-- Source: `words_to_sentences` with all its list indexing fallible. -/
def words_to_sentences_opt (words : List Word) (gap_threshold : ℚ)
    (max_chars : ℤ) : Option (List Sentence) :=
  match words with
  | [] => some []
  | _ => wtsGoOpt gap_threshold max_chars [] words

/-- Python `int()` on an exact value: truncation toward zero. -/
def pyTrunc (q : ℚ) : ℤ := if 0 ≤ q then ⌊q⌋ else ⌈q⌉

/-- Source: `start_ms = max(int(sent["start_time"] * 1000), 0)` (pipeline.py line 131). -/
def clip_start_ms (s : Sentence) : ℤ := max (pyTrunc (s.start_time * 1000)) 0

/-- Source: `end_ms = max(int(sent["end_time"] * 1000), start_ms + 1)` (line 132). -/
def clip_end_ms (s : Sentence) : ℤ :=
  max (pyTrunc (s.end_time * 1000)) (clip_start_ms s + 1)

/-- Python `round(x, 3)` on an exact value: rounding to the nearest multiple
of 1/1000 (ties on floats resolve by round-half-to-even; no property below
depends on the tie case). -/
def pyRound3 (q : ℚ) : ℚ := (round (q * 1000) : ℚ) / 1000

/-- The decimal digit character for a value below ten. -/
def digitChar (n : ℕ) : Char := Char.ofNat (48 + n)

/-- Decimal representation worker, fuel-driven so that it reduces in the
kernel; `decRepr` supplies enough fuel. -/
def decReprCore : ℕ → ℕ → List Char
  | 0, _ => []
  | fuel + 1, n =>
    if n < 10 then [digitChar n]
    else decReprCore fuel (n / 10) ++ [digitChar (n % 10)]

/-- The decimal representation of a natural number (Python `str(n)`). -/
def decRepr (n : ℕ) : List Char := decReprCore (n + 1) n

/-- Python format spec `03`: left-pad the decimal representation with zeros
to a minimum width of three. -/
def pad3 (n : ℕ) : List Char :=
  List.replicate (3 - (decRepr n).length) '0' ++ decRepr n

/-- Source: `filename = "segment_" + format(i, "03") + ".mp3"` (pipeline.py line 134). -/
def clipFilename (i : ℕ) : List Char := cs ("segment_") ++ pad3 i ++ cs (".mp3")

/-- The manifest `path` field `"segments/" + filename` (line 141). -/
def clipPath (i : ℕ) : List Char := cs ("segments/") ++ clipFilename i

/-- A manifest row (pipeline.py lines 137-142). -/
structure ClipRecord where
  text : List Char
  start_time : ℚ
  end_time : ℚ
  path : List Char
deriving DecidableEq

/-- The manifest row built for the sentence at 1-based ordinal `i`. -/
def clipRecord (i : ℕ) (s : Sentence) : ClipRecord :=
  ⟨s.text, pyRound3 s.start_time, pyRound3 s.end_time, clipPath i⟩

/-- The manifest rows of `export_clips`, from 1-based `enumerate`. -/
def export_records_go (i : ℕ) : List Sentence → List ClipRecord
  | [] => []
  | s :: rest => clipRecord i s :: export_records_go (i + 1) rest

/-- The manifest produced by a fully successful `export_clips`
(pipeline.py lines 125-143). -/
def export_records (sentences : List Sentence) : List ClipRecord :=
  export_records_go 1 sentences

/-- Externally visible file writes of the export stage. -/
inductive ExportEvent where
  | artifactWrite (path : List Char)
  | manifestWrite
deriving DecidableEq

/-- Source: `export_clips` with a failure oracle: `fails i` states whether slicing or
encoding the clip at 1-based ordinal `i` raises.  The loop has no handler, so
the first failure propagates; the trace lists the artifact files written
before it. -/
def export_clips_run (fails : ℕ → Bool) (i : ℕ) :
    List Sentence → Option (List ClipRecord) × List ExportEvent
  | [] => (some [], [])
  | s :: rest =>
    if fails i then (none, [])
    else
      let r := export_clips_run fails (i + 1) rest
      ((r.1).map (fun items => clipRecord i s :: items),
       ExportEvent.artifactWrite (clipPath i) :: r.2)

/-- Source: `main` steps 4 and 5 (pipeline.py lines 197-202): run `export_clips`,
then `write_json`; an exception from `export_clips` aborts before the
manifest write. -/
def main_run (fails : ℕ → Bool) (sentences : List Sentence) :
    Option (List ClipRecord) × List ExportEvent :=
  match export_clips_run fails 1 sentences with
  | (none, tr) => (none, tr)
  | (some items, tr) => (some items, tr ++ [ExportEvent.manifestWrite])

namespace NoFFmpeg

/-- Source: `SENTENCE_END_CHARS` of pipeline_no_ffmpeg.py (line 13). -/
def SENTENCE_END_CHARS : List Char := ['.', '!', '?', '。', '！', '？', '…']

/-- Source: `should_close_sentence` of pipeline_no_ffmpeg.py (lines 63-72). -/
def should_close_sentence (accum_text : List Char) (current_word : Word)
    (next_word : Option Word) (gap_threshold : ℚ) : Bool :=
  let gapClose : Bool :=
    match next_word with
    | some nw => decide (gap_threshold ≤ nw.start - current_word.end_)
    | none => false
  match accum_text.getLast? with
  | some c => if c ∈ SENTENCE_END_CHARS then true else gapClose
  | none => gapClose

/-- Source: `normalize_spacing` of pipeline_no_ffmpeg.py (lines 116-121). -/
def normalize_spacing (s : List Char) : List Char :=
  rmSpBefore (pyStrip (collapseWs s))

/-- Accumulator closing of pipeline_no_ffmpeg.py (lines 98-104, 107-112). -/
def emitAcc? (acc : List Word) : Option Sentence :=
  match acc with
  | [] => none
  | a :: t =>
    let text := normalize_spacing (accumText (a :: t))
    if pyStrip text = [] then none
    else some ⟨text, a.start, (t.getLastD a).end_⟩

/-- Source: `need_close` of pipeline_no_ffmpeg.py (lines 89-96). -/
def needClose (gap_threshold : ℚ) (max_chars : ℤ) (acc' : List Word)
    (w : Word) (next_w : Option Word) : Bool :=
  should_close_sentence (accumText acc') w next_w gap_threshold
    || decide (max_chars ≤ (accumText acc').length)

/-- The accumulation loop of pipeline_no_ffmpeg.py `words_to_sentences`. -/
def wtsGo (gap_threshold : ℚ) (max_chars : ℤ) (acc : List Word) :
    List Word → List Sentence
  | [] => (emitAcc? acc).toList
  | w :: rest =>
    let acc' := acc ++ [w]
    if needClose gap_threshold max_chars acc' w rest.head? then
      (emitAcc? acc').toList ++ wtsGo gap_threshold max_chars [] rest
    else
      wtsGo gap_threshold max_chars acc' rest
termination_by structural l => l

/-- Source: `words_to_sentences` of pipeline_no_ffmpeg.py (lines 74-114). -/
def words_to_sentences (words : List Word) (gap_threshold : ℚ)
    (max_chars : ℤ) : List Sentence :=
  match words with
  | [] => []
  | _ => wtsGo gap_threshold max_chars [] words

end NoFFmpeg

/-- Strict lexicographic order on character lists (the order of Python string
comparison, used to state filename monotonicity). -/
def lexLt : List Char → List Char → Bool
  | [], [] => false
  | [], _ :: _ => true
  | _ :: _, [] => false
  | a :: as, b :: bs => if a < b then true else if b < a then false else lexLt as bs

/-- All whitespace characters of `l` are the ASCII space (the normal form
produced by the first substitution of `normalize_spacing`). -/
def SpacesAreSP (l : List Char) : Prop := ∀ c ∈ l, isSpace c = true → c = ' '

/-- No two adjacent whitespace characters. -/
def NoTwoSpaces (l : List Char) : Prop :=
  List.Chain' (fun a b => ¬(isSpace a = true ∧ isSpace b = true)) l

/-- No whitespace immediately before a CJK terminal punctuation character. -/
def NoSpaceBeforePunct (l : List Char) : Prop :=
  List.Chain' (fun a b => ¬(isSpace a = true ∧ b ∈ cjkPunct)) l

/-! ## Theorems -/

/-- The loop's closing decision, as a proposition: terminal punctuation, or a
qualifying gap to the next word, or the length guard. -/
theorem needClose_iff (gt : ℚ) (mc : ℤ) (acc' : List Word) (w : Word)
    (nx : Option Word) :
    needClose gt mc acc' w nx = true ↔
      (∃ c, (accumText acc').getLast? = some c ∧ c ∈ SENTENCE_END_CHARS)
      ∨ (∃ nw, nx = some nw ∧ gt ≤ nw.start - w.end_)
      ∨ (mc ≤ ((accumText acc').length : ℤ)) := by
  unfold needClose should_close_sentence
  cases h : (accumText acc').getLast? with
  | none =>
    cases nx with
    | none => simp [h]
    | some nw => simp [h]
  | some c =>
    by_cases hc : c ∈ SENTENCE_END_CHARS
    · cases nx with
      | none => simp [h, hc]
      | some nw => simp [h, hc]
    · cases nx with
      | none => simp [h, hc]
      | some nw => simp [h, hc]

open Classical in
/-- C1: after appending word `w` to the accumulator, the segmenter closes the
accumulator exactly when (a) the last character of the accumulated text is in
the sentence-terminal punctuation set, or else (b) a next word exists and
`next.start - w.end >= gap_threshold`, or else (c) the accumulated length has
reached `max_chars`; in particular punctuation closes the sentence even when
`max_chars` is already exceeded or no qualifying gap exists. -/
theorem C1_close_condition (gt : ℚ) (mc : ℤ) (acc : List Word) (w : Word)
    (rest : List Word) :
    wtsGo gt mc acc (w :: rest) =
      if (∃ c, (accumText (acc ++ [w])).getLast? = some c ∧
            c ∈ SENTENCE_END_CHARS)
          ∨ (∃ nw, rest.head? = some nw ∧ gt ≤ nw.start - w.end_)
          ∨ (mc ≤ ((accumText (acc ++ [w])).length : ℤ)) then
        (emitAcc? (acc ++ [w])).toList ++ wtsGo gt mc [] rest
      else
        wtsGo gt mc (acc ++ [w]) rest := by
  have h := needClose_iff gt mc (acc ++ [w]) w rest.head?
  by_cases hb : needClose gt mc (acc ++ [w]) w rest.head? = true
  · rw [wtsGo]
    simp only [hb, if_true]
    rw [if_pos (h.mp hb)]
  · rw [wtsGo]
    simp only [Bool.not_eq_true] at hb
    simp only [hb, Bool.false_eq_true, if_false]
    rw [if_neg (fun hp => by simp [h.mpr hp] at hb)]

/-- C10: the two copies of the segmentation core, in pipeline.py and
pipeline_no_ffmpeg.py, are extensionally equal: for every word list,
gap threshold and max_chars they produce the same sentence list. -/
theorem C10_copies_agree (ws : List Word) (gt : ℚ) (mc : ℤ) :
    words_to_sentences ws gt mc = NoFFmpeg.words_to_sentences ws gt mc := by
  have hgo : ∀ l acc, wtsGo gt mc acc l = NoFFmpeg.wtsGo gt mc acc l := by
    intro l
    induction l with
    | nil => intro acc; rfl
    | cons w rest ih =>
      intro acc
      rw [wtsGo, NoFFmpeg.wtsGo]
      have hnc : NoFFmpeg.needClose = needClose := rfl
      have hem : NoFFmpeg.emitAcc? = emitAcc? := rfl
      rw [hnc, hem]
      split <;> rw [ih]
  cases ws with
  | nil => rfl
  | cons w rest =>
    show wtsGo gt mc [] (w :: rest) = NoFFmpeg.wtsGo gt mc [] (w :: rest)
    exact hgo (w :: rest) []

/-- C5 as stated is false: the code truncates (`int()`), it does not round to
the nearest millisecond.  At `start_time = 0.0019` s the code computes
`start_ms = 1` while the claimed formula gives `2`. -/
theorem C5_counterexample :
    clip_start_ms ⟨cs ("a"), mkRat 19 10000, 1⟩ ≠
      max (round ((mkRat 19 10000 : ℚ) * 1000)) 0 := by
  with_unfolding_all decide

/-- C5 amended: the millisecond bounds are computed by truncation toward zero
(Python `int()`), not rounding: `start_ms = max(int(start_time*1000), 0)` and
`end_ms = max(int(end_time*1000), start_ms + 1)`; consequently
`end_ms >= start_ms + 1` always holds and the sliced range is never empty. -/
theorem C5_clip_bounds (s : Sentence) :
    clip_start_ms s = max (pyTrunc (s.start_time * 1000)) 0 ∧
    clip_end_ms s = max (pyTrunc (s.end_time * 1000)) (clip_start_ms s + 1) ∧
    0 ≤ clip_start_ms s ∧ clip_start_ms s + 1 ≤ clip_end_ms s :=
  ⟨rfl, rfl, le_max_right _ _, le_max_right _ _⟩

/-- The export loop itself never writes the manifest. -/
theorem export_run_no_manifest (fails : ℕ → Bool) (sents : List Sentence) :
    ∀ i, ExportEvent.manifestWrite ∉ (export_clips_run fails i sents).2 := by
  induction sents with
  | nil => intro i; simp [export_clips_run]
  | cons s rest ih =>
    intro i
    rw [export_clips_run]
    by_cases hf : fails i
    · simp [hf]
    · simp [hf]
      exact ih (i + 1)

/-- When no clip export fails, the loop returns the full manifest row list and
writes exactly one artifact per sentence, in ordinal order. -/
theorem export_run_ok (fails : ℕ → Bool) (sents : List Sentence) :
    ∀ i, (∀ k, k < sents.length → fails (i + k) = false) →
    export_clips_run fails i sents =
      (some (export_records_go i sents),
       (List.range sents.length).map
         (fun k => ExportEvent.artifactWrite (clipPath (i + k)))) := by
  induction sents with
  | nil => intro i _; simp [export_clips_run, export_records_go]
  | cons s rest ih =>
    intro i h
    have h0 : fails i = false := by simpa using h 0 (by simp)
    have hrec := ih (i + 1) (fun k hk => by
      have hlen : k + 1 < (s :: rest).length := by simp; omega
      have := h (k + 1) hlen
      have heq : i + (k + 1) = i + 1 + k := by omega
      rwa [heq] at this)
    rw [export_clips_run, h0]
    simp only [Bool.false_eq_true, if_false]
    rw [hrec, export_records_go]
    simp only [Option.map_some, List.length_cons, List.range_succ_eq_map,
      List.map_cons, List.map_map, Nat.add_zero, Prod.mk.injEq, true_and]
    refine ⟨rfl, ?_⟩
    congr 1
    exact List.map_congr_left (fun a _ => by
      dsimp only [Function.comp_apply]
      congr 2
      omega)

/-- A failing clip export makes the whole loop fail. -/
theorem export_run_fail (fails : ℕ → Bool) (sents : List Sentence) :
    ∀ i, (∃ k, k < sents.length ∧ fails (i + k) = true) →
    (export_clips_run fails i sents).1 = none := by
  induction sents with
  | nil =>
    intro i hex
    obtain ⟨k, hk, _⟩ := hex
    simp at hk
  | cons s rest ih =>
    intro i hex
    obtain ⟨k, hk, hf⟩ := hex
    rw [export_clips_run]
    by_cases h0 : fails i
    · simp [h0]
    · have hnext : ∃ k', k' < rest.length ∧ fails ((i + 1) + k') = true := by
        cases k with
        | zero => simp only [Nat.add_zero] at hf; exact absurd hf (by simp [h0])
        | succ k' =>
          refine ⟨k', by simp at hk; omega, ?_⟩
          have heq : (i + 1) + k' = i + (k' + 1) := by omega
          rw [heq]
          exact hf
      simp only [h0, Bool.false_eq_true, if_false]
      simp [ih (i + 1) hnext]

/-- C7: a failing clip slice/write is fatal to the whole export: the result is
an error, no success is reported, and the manifest is never written; the
manifest write happens at most once, and only on full success, after every
artifact has been produced in ordinal order. -/
theorem C7_export_failure_fatal (fails : ℕ → Bool) (sents : List Sentence) :
    ((∃ k, k < sents.length ∧ fails (k + 1) = true) →
        (main_run fails sents).1 = none ∧
        ExportEvent.manifestWrite ∉ (main_run fails sents).2) ∧
    ((main_run fails sents).2.count ExportEvent.manifestWrite ≤ 1) ∧
    ((main_run fails sents).1 ≠ none →
        (main_run fails sents).1 = some (export_records sents) ∧
        (main_run fails sents).2 =
          (List.range sents.length).map
            (fun k => ExportEvent.artifactWrite (clipPath (k + 1)))
            ++ [ExportEvent.manifestWrite]) := by
  cases hrun : export_clips_run fails 1 sents with
  | mk res tr =>
    have hnm : ExportEvent.manifestWrite ∉ tr := by
      have := export_run_no_manifest fails sents 1
      rw [hrun] at this
      exact this
    have h0 : tr.count ExportEvent.manifestWrite = 0 :=
      List.count_eq_zero.mpr hnm
    cases res with
    | none =>
      have hm : main_run fails sents = (none, tr) := by
        unfold main_run
        rw [hrun]
      rw [hm]
      refine ⟨fun _ => ⟨rfl, hnm⟩, by simp [h0], fun hne => absurd rfl hne⟩
    | some items =>
      have hm : main_run fails sents =
          (some items, tr ++ [ExportEvent.manifestWrite]) := by
        unfold main_run
        rw [hrun]
      rw [hm]
      dsimp only
      refine ⟨?_, ?_, ?_⟩
      · intro hex
        obtain ⟨k, hk, hf⟩ := hex
        have := export_run_fail fails sents 1 ⟨k, hk, by rwa [Nat.add_comm] at hf⟩
        rw [hrun] at this
        simp at this
      · rw [List.count_append]
        simp [h0]
      · intro _
        by_cases hall : ∀ k, k < sents.length → fails (1 + k) = false
        · have hok := export_run_ok fails sents 1 hall
          rw [hrun] at hok
          have h1 : items = export_records_go 1 sents := by
            have := congrArg Prod.fst hok
            simpa using this
          have h2 : tr = (List.range sents.length).map
              (fun k => ExportEvent.artifactWrite (clipPath (1 + k))) := by
            have := congrArg Prod.snd hok
            simpa using this
          subst h1
          refine ⟨rfl, ?_⟩
          rw [h2]
          congr 1
          exact List.map_congr_left (fun a _ => by
            congr 2
            omega)
        · exfalso
          push_neg at hall
          obtain ⟨k, hk, hf⟩ := hall
          have := export_run_fail fails sents 1 ⟨k, hk, by simpa using hf⟩
          rw [hrun] at this
          simp at this

/-- Witness for C7 at a concrete failing export: one sentence whose clip
export fails. -/
theorem C7_export_failure_fatal_witness :
    (∃ k, k < ([⟨cs ("a."), 0, 1⟩] : List Sentence).length ∧
        (fun i => decide (i = 1)) (k + 1) = true) ∧
    ((main_run (fun i => decide (i = 1)) [⟨cs ("a."), 0, 1⟩]).1 = none ∧
      ExportEvent.manifestWrite ∉
        (main_run (fun i => decide (i = 1)) [⟨cs ("a."), 0, 1⟩]).2) := by
  refine ⟨⟨0, by decide, by decide⟩, ?_⟩
  exact (C7_export_failure_fatal (fun i => decide (i = 1))
    [⟨cs ("a."), 0, 1⟩]).1 ⟨0, by decide, by decide⟩

/-- The fuel argument of `decReprCore` is irrelevant once it exceeds `n`. -/
theorem decReprCore_fuel : ∀ n f1 f2, n < f1 → n < f2 →
    decReprCore f1 n = decReprCore f2 n := by
  intro n
  induction n using Nat.strong_induction_on with
  | _ n ih =>
    intro f1 f2 h1 h2
    match f1, f2 with
    | f1 + 1, f2 + 1 =>
      rw [decReprCore, decReprCore]
      by_cases hn : n < 10
      · simp [hn]
      · simp only [hn, if_false]
        rw [ih (n / 10) (by omega) f1 f2 (by omega) (by omega)]

/-- One-digit decimal representation. -/
theorem decRepr_lt10 (n : ℕ) (h : n < 10) : decRepr n = [digitChar n] := by
  rw [decRepr, decReprCore]
  simp [h]

/-- Peeling the last decimal digit. -/
theorem decRepr_eq_append (n : ℕ) (h : 10 ≤ n) :
    decRepr n = decRepr (n / 10) ++ [digitChar (n % 10)] := by
  rw [decRepr, decReprCore]
  simp only [Nat.not_lt.mpr h, if_false]
  rw [decReprCore_fuel (n / 10) n (n / 10 + 1) (by omega) (by omega)]
  rfl

/-- The zero digit. -/
theorem digitChar_zero : digitChar 0 = '0' := by decide

/-- Digit characters compare like their values. -/
theorem digitChar_lt {a b : ℕ} (hb : b < 10) (h : a < b) :
    digitChar a < digitChar b := by
  have key : ∀ b, b < 10 → ∀ a, a < b → digitChar a < digitChar b := by decide
  exact key b hb a h

/-- The `03` format of an ordinal between 1 and 999 is its three decimal
digits, zero-padded. -/
theorem pad3_eq (i : ℕ) (h1 : 1 ≤ i) (h2 : i ≤ 999) :
    pad3 i = [digitChar (i / 100), digitChar (i / 10 % 10), digitChar (i % 10)] := by
  rcases Nat.lt_or_ge i 10 with h10 | h10
  · have hd : decRepr i = [digitChar i] := decRepr_lt10 i h10
    rw [pad3, hd]
    have e1 : i / 100 = 0 := by omega
    have e2 : i / 10 % 10 = 0 := by omega
    have e3 : i % 10 = i := by omega
    rw [e1, e2, e3, digitChar_zero]
    rfl
  · rcases Nat.lt_or_ge i 100 with h100 | h100
    · have hd10 : decRepr (i / 10) = [digitChar (i / 10)] :=
        decRepr_lt10 _ (by omega)
      have hd := decRepr_eq_append i h10
      rw [pad3, hd, hd10]
      have e1 : i / 100 = 0 := by omega
      have e2 : i / 10 % 10 = i / 10 := by omega
      rw [e1, e2, digitChar_zero]
      rfl
    · have hd := decRepr_eq_append i (by omega)
      have hd10 := decRepr_eq_append (i / 10) (by omega)
      have hd100 : decRepr (i / 10 / 10) = [digitChar (i / 10 / 10)] :=
        decRepr_lt10 _ (by omega)
      have e1 : i / 10 / 10 = i / 100 := by omega
      rw [pad3, hd, hd10, hd100, e1]
      rfl

/-- A padded ordinal between 1 and 999 is exactly three characters wide. -/
theorem pad3_length (i : ℕ) (h1 : 1 ≤ i) (h2 : i ≤ 999) :
    (pad3 i).length = 3 := by
  rw [pad3_eq i h1 h2]
  rfl

/-- Source: `lexLt` on a smaller first character. -/
theorem lexLt_cons_lt {a b : Char} (x y : List Char) (h : a < b) :
    lexLt (a :: x) (b :: y) = true := by
  rw [lexLt]
  simp [h]

/-- Source: `lexLt` under equal heads. -/
theorem lexLt_cons_eq (a : Char) (x y : List Char) :
    lexLt (a :: x) (a :: y) = lexLt x y := by
  rw [lexLt]
  simp [lt_irrefl]

/-- Source: `lexLt` is preserved by a common front block. -/
theorem lexLt_append_left (p : List Char) : ∀ x y, lexLt x y = true →
    lexLt (p ++ x) (p ++ y) = true := by
  induction p with
  | nil => intro x y h; simpa using h
  | cons c cp ih =>
    intro x y h
    rw [List.cons_append, List.cons_append, lexLt_cons_eq]
    exact ih x y h

/-- Lexicographic comparison decided within the first three characters. -/
theorem lexLt3 {x1 x2 x3 y1 y2 y3 : Char} (s t : List Char)
    (h : x1 < y1 ∨ (x1 = y1 ∧ (x2 < y2 ∨ (x2 = y2 ∧ x3 < y3)))) :
    lexLt (x1 :: x2 :: x3 :: s) (y1 :: y2 :: y3 :: t) = true := by
  rcases h with h1 | ⟨h1, h2⟩
  · exact lexLt_cons_lt _ _ h1
  · subst h1
    rw [lexLt_cons_eq]
    rcases h2 with h2 | ⟨h2, h3⟩
    · exact lexLt_cons_lt _ _ h2
    · subst h2
      rw [lexLt_cons_eq]
      exact lexLt_cons_lt _ _ h3

/-- The clip path decomposed around its padded ordinal. -/
theorem clipPath_eq (k : ℕ) :
    clipPath k = cs ("segments/segment_") ++ (pad3 k ++ cs (".mp3")) := rfl

/-- Clip paths of ordinals up to 999 are strictly increasing for `lexLt`. -/
theorem clipPath_lexLt (i j : ℕ) (hi : 1 ≤ i) (hij : i < j) (hj : j ≤ 999) :
    lexLt (clipPath i) (clipPath j) = true := by
  rw [clipPath_eq, clipPath_eq]
  apply lexLt_append_left
  rw [pad3_eq i hi (by omega), pad3_eq j (by omega) hj]
  have key : i / 100 < j / 100 ∨ (i / 100 = j / 100 ∧
      (i / 10 % 10 < j / 10 % 10 ∨ (i / 10 % 10 = j / 10 % 10 ∧
        i % 10 < j % 10))) := by omega
  apply lexLt3
  rcases key with h1 | ⟨h1, h2⟩
  · exact Or.inl (digitChar_lt (by omega) h1)
  · refine Or.inr ⟨congrArg digitChar h1, ?_⟩
    rcases h2 with h2 | ⟨h2, h3⟩
    · exact Or.inl (digitChar_lt (by omega) h2)
    · exact Or.inr ⟨congrArg digitChar h2, digitChar_lt (by omega) h3⟩

/-- One manifest row per sentence. -/
theorem export_records_go_length (sents : List Sentence) :
    ∀ i, (export_records_go i sents).length = sents.length := by
  induction sents with
  | nil => intro i; rfl
  | cons s rest ih =>
    intro i
    rw [export_records_go]
    simp [ih (i + 1)]

/-- The manifest row at 0-based position `k` describes the sentence at `k`,
with 1-based ordinal `i + k`. -/
theorem export_records_go_getElem? (sents : List Sentence) :
    ∀ i k, (export_records_go i sents)[k]? =
      (sents[k]?).map (clipRecord (i + k)) := by
  induction sents with
  | nil => intro i k; simp [export_records_go]
  | cons s rest ih =>
    intro i k
    cases k with
    | zero => simp [export_records_go]
    | succ k' =>
      rw [export_records_go]
      simp only [List.getElem?_cons_succ]
      have heq : i + (k' + 1) = (i + 1) + k' := by omega
      rw [heq]
      exact ih (i + 1) k'

/-- The paths of the manifest rows, in order. -/
theorem export_records_go_paths (sents : List Sentence) :
    ∀ i, (export_records_go i sents).map (fun r => r.path) =
      (List.range sents.length).map (fun k => clipPath (i + k)) := by
  induction sents with
  | nil => intro i; rfl
  | cons s rest ih =>
    intro i
    rw [export_records_go]
    simp only [List.map_cons, List.length_cons, List.range_succ_eq_map,
      List.map_map, Nat.add_zero]
    rw [ih (i + 1)]
    refine congrArg (List.cons _) ?_
    exact List.map_congr_left (fun a _ => by
      dsimp only [Function.comp_apply]
      congr 1
      omega)

/-- C6 amended: the manifest has exactly one row per sentence at the same
ordinal, for every export without restriction; for exports of at most 999
sentences the artifact names additionally have the fixed zero-padded
3-digit width (total path length 24) and are strictly increasing in
lexicographic order, hence pairwise distinct.  (For 1000 or more sentences
the format widens beyond 3 digits and lexicographic monotonicity fails; see
the counterexample.) -/
theorem C6_manifest_correspondence (sents : List Sentence) :
    (export_records sents).length = sents.length ∧
    (sents.length ≤ 999 →
      ((export_records sents).map (fun r => r.path)).Pairwise
        (fun p q => lexLt p q = true) ∧
      (∀ r ∈ export_records sents, (r.path).length = 24)) := by
  refine ⟨export_records_go_length sents 1, fun h => ⟨?_, ?_⟩⟩
  · rw [export_records, export_records_go_paths sents 1]
    refine List.pairwise_map.mpr ?_
    have hr : (List.range sents.length).Pairwise (· < ·) :=
      List.pairwise_lt_range sents.length
    refine hr.imp_of_mem ?_
    intro a b ha hb hab
    have hbb : b < sents.length := List.mem_range.mp hb
    exact clipPath_lexLt (1 + a) (1 + b) (by omega) (by omega) (by omega)
  · intro r hr
    have hp : r.path ∈ (export_records sents).map (fun r => r.path) :=
      List.mem_map_of_mem _ hr
    rw [export_records, export_records_go_paths sents 1] at hp
    obtain ⟨k, hk, hpath⟩ := List.mem_map.mp hp
    have hkn : k < sents.length := List.mem_range.mp hk
    rw [← hpath, clipPath_eq]
    rw [List.length_append, List.length_append,
      pad3_length (1 + k) (by omega) (by omega)]
    rfl

/-- Witness for C6 at a concrete one-sentence export. -/
theorem C6_manifest_correspondence_witness :
    ((export_records [(⟨cs ("a."), 0, 1⟩ : Sentence)]).length =
        ([(⟨cs ("a."), 0, 1⟩ : Sentence)] : List Sentence).length) ∧
    ([(⟨cs ("a."), 0, 1⟩ : Sentence)] : List Sentence).length ≤ 999 ∧
    (((export_records [(⟨cs ("a."), 0, 1⟩ : Sentence)]).map
        (fun r => r.path)).Pairwise (fun p q => lexLt p q = true) ∧
      (∀ r ∈ export_records [(⟨cs ("a."), 0, 1⟩ : Sentence)],
        (r.path).length = 24)) :=
  ⟨(C6_manifest_correspondence [⟨cs ("a."), 0, 1⟩]).1, by decide,
    (C6_manifest_correspondence [⟨cs ("a."), 0, 1⟩]).2 (by decide)⟩

/-- C6 as stated is false for exports of 1000 or more sentences: the Python
format `03` is a minimum width, so ordinal 1000 produces the 4-digit name
`segment_1000.mp3`, which sorts lexicographically before `segment_999.mp3`;
the filenames of a 1000-sentence export are not strictly increasing. -/
theorem C6_counterexample :
    ¬ (((export_records
          (List.replicate 1000 (⟨cs ("a"), 0, 1⟩ : Sentence))).map
        (fun r => r.path)).Pairwise (fun p q => lexLt p q = true)) := by
  intro hpw
  rw [export_records, export_records_go_paths] at hpw
  rw [List.length_replicate] at hpw
  have hsub : List.Sublist ([998, 999] : List ℕ) (List.range 1000) := by
    have h1 : List.range 1000 = (List.range 998 ++ [998]) ++ [999] := by
      rw [← List.range_succ, ← List.range_succ]
    rw [h1]
    show List.Sublist ([998] ++ [999]) ((List.range 998 ++ [998]) ++ [999])
    exact (List.sublist_append_right _ _).append (List.Sublist.refl _)
  have hps := hpw.sublist (hsub.map (fun k => clipPath (1 + k)))
  rw [List.map_cons, List.map_cons, List.map_nil] at hps
  have hrel := (List.pairwise_cons.mp hps).1 _ (List.mem_singleton.mpr rfl)
  exact absurd hrel (by decide)
/-- The closed groups concatenate back to the input: no word is dropped or
duplicated by the accumulation loop. -/
theorem wtsGroups_flatten (gt : ℚ) (mc : ℤ) :
    ∀ rest acc, (wtsGroups gt mc acc rest).flatten = acc ++ rest := by
  intro rest
  induction rest with
  | nil =>
    intro acc
    rw [wtsGroups]
    by_cases h : acc.isEmpty
    · rw [if_pos h, List.isEmpty_iff.mp h]
      rfl
    · rw [if_neg h]
      simp
  | cons w rest ih =>
    intro acc
    rw [wtsGroups]
    split
    · rw [List.flatten_cons, ih []]
      simp
    · rw [ih (acc ++ [w])]
      simp

/-- The sentences are exactly the emitted groups, in order. -/
theorem wtsGo_eq_filterMap (gt : ℚ) (mc : ℤ) :
    ∀ rest acc, wtsGo gt mc acc rest =
      (wtsGroups gt mc acc rest).filterMap emitAcc? := by
  intro rest
  induction rest with
  | nil =>
    intro acc
    rw [wtsGo, wtsGroups]
    by_cases h : acc.isEmpty
    · rw [if_pos h, List.isEmpty_iff.mp h]
      rfl
    · rw [if_neg h, List.filterMap_cons]
      cases emitAcc? acc <;> simp
  | cons w rest ih =>
    intro acc
    rw [wtsGo, wtsGroups]
    split
    · rw [ih [], List.filterMap_cons]
      cases emitAcc? (acc ++ [w]) <;> simp
    · exact ih (acc ++ [w])

/-- Every closed group is non-empty. -/
theorem wtsGroups_ne_nil (gt : ℚ) (mc : ℤ) :
    ∀ rest acc g, g ∈ wtsGroups gt mc acc rest → g ≠ [] := by
  intro rest
  induction rest with
  | nil =>
    intro acc g hg
    rw [wtsGroups] at hg
    by_cases h : acc.isEmpty
    · rw [if_pos h] at hg
      simp at hg
    · rw [if_neg h] at hg
      simp at hg
      subst hg
      exact fun hnil => h (by simp [hnil])
  | cons w rest ih =>
    intro acc g hg
    rw [wtsGroups] at hg
    rcases (by
      by_cases hc : needClose gt mc (acc ++ [w]) w rest.head? = true
      · rw [if_pos hc] at hg
        exact Or.inl hg
      · rw [if_neg hc] at hg
        exact Or.inr hg :
        g ∈ (acc ++ [w]) :: wtsGroups gt mc [] rest ∨
          g ∈ wtsGroups gt mc (acc ++ [w]) rest) with h1 | h2
    · rcases List.mem_cons.mp h1 with he | ht
      · subst he
        simp
      · exact ih [] g ht
    · exact ih (acc ++ [w]) g h2

/-- A discarded group is exactly one whose normalized text is empty after
trimming. -/
theorem emitAcc_none (g : List Word) (hne : g ≠ []) (h : emitAcc? g = none) :
    pyStrip (normalize_spacing (accumText g)) = [] := by
  cases g with
  | nil => exact absurd rfl hne
  | cons a t =>
    rw [emitAcc?] at h
    by_cases hs : pyStrip (normalize_spacing (accumText (a :: t))) = []
    · exact hs
    · rw [if_neg hs] at h
      simp at h

/-- C3: for every non-empty word list, the words of the closed accumulator
groups, in emission order, concatenate to exactly the input word sequence
(no word dropped or duplicated); the emitted sentences are exactly the
groups whose normalized text is non-empty after trimming, and every
discarded group normalizes to the empty trimmed string.  Applied to the
sorted word list produced upstream, this is the spec's partition property. -/
theorem C3_partition (ws : List Word) (gt : ℚ) (mc : ℤ) (hne : ws ≠ []) :
    (segmentGroups ws gt mc).flatten = ws ∧
    words_to_sentences ws gt mc = (segmentGroups ws gt mc).filterMap emitAcc? ∧
    (∀ g ∈ segmentGroups ws gt mc, emitAcc? g = none →
      pyStrip (normalize_spacing (accumText g)) = []) := by
  cases ws with
  | nil => exact absurd rfl hne
  | cons w rest =>
    refine ⟨?_, ?_, ?_⟩
    · show (wtsGroups gt mc [] (w :: rest)).flatten = w :: rest
      rw [wtsGroups_flatten gt mc (w :: rest) []]
      rfl
    · show wtsGo gt mc [] (w :: rest) = _
      exact wtsGo_eq_filterMap gt mc (w :: rest) []
    · intro g hg hnone
      exact emitAcc_none g (wtsGroups_ne_nil gt mc (w :: rest) [] g hg) hnone

/-- Witness for C3 at a concrete two-word input. -/
theorem C3_partition_witness :
    ([⟨cs ("Hi"), 0, 1⟩, ⟨cs ("."), 1, 2⟩] : List Word) ≠ [] ∧
    ((segmentGroups [⟨cs ("Hi"), 0, 1⟩, ⟨cs ("."), 1, 2⟩] 5 80).flatten =
        [⟨cs ("Hi"), 0, 1⟩, ⟨cs ("."), 1, 2⟩] ∧
      words_to_sentences [⟨cs ("Hi"), 0, 1⟩, ⟨cs ("."), 1, 2⟩] 5 80 =
        (segmentGroups [⟨cs ("Hi"), 0, 1⟩, ⟨cs ("."), 1, 2⟩] 5 80).filterMap
          emitAcc? ∧
      (∀ g ∈ segmentGroups [⟨cs ("Hi"), 0, 1⟩, ⟨cs ("."), 1, 2⟩] 5 80,
        emitAcc? g = none →
          pyStrip (normalize_spacing (accumText g)) = [])) :=
  ⟨by decide, C3_partition [⟨cs ("Hi"), 0, 1⟩, ⟨cs ("."), 1, 2⟩] 5 80 (by decide)⟩

/-- Sorting an already sorted word list changes nothing. -/
theorem sortWords_idem (ws : List Word) :
    sortWords (sortWords ws) = sortWords ws :=
  List.Sorted.insertionSort_eq (List.sorted_insertionSort wordLE ws)

/-- C2 as stated is false: `words_to_sentences` itself does not sort its
input (the sort happens upstream, in `transcribe`).  On an out-of-order
two-word list the unsorted and sorted runs give different sentence lists. -/
theorem C2_counterexample :
    words_to_sentences [⟨cs ("."), 1, 2⟩, ⟨cs ("a"), 0, 1⟩] 10 80 ≠
      words_to_sentences
        (sortWords [⟨cs ("."), 1, 2⟩, ⟨cs ("a"), 0, 1⟩]) 10 80 := by
  with_unfolding_all decide

/-- C2 amended: the `(start, end)` sort happens upstream of the segmenter, in
`transcribe` (pipeline.py line 62), so the segmentation stage as invoked
always receives a sorted list; sorting is idempotent, hence the invoked
composition (sort, then accumulate) is insensitive to presorting its input.
`words_to_sentences` alone is not order-insensitive. -/
theorem C2_sort_upstream (ws : List Word) (gt : ℚ) (mc : ℤ) :
    words_to_sentences (sortWords ws) gt mc =
      words_to_sentences (sortWords (sortWords ws)) gt mc := by
  rw [sortWords_idem]

/-- The key ordering bounds start times. -/
theorem wordLE_start {a b : Word} (h : wordLE a b) : a.start ≤ b.start := by
  rcases h with h | ⟨h, _⟩
  · exact le_of_lt h
  · exact le_of_eq h

/-- Source: `acc[-1]`, rendered as `getLastD`, is a member of the accumulator. -/
theorem getLastD_mem (t : List Word) (a : Word) : t.getLastD a ∈ a :: t := by
  induction t generalizing a with
  | nil => simp [List.getLastD]
  | cons b t' ih =>
    rw [List.getLastD_cons]
    exact List.mem_cons_of_mem a (ih b)

/-- An emitted sentence takes its start from the first and its end from the
last word of its group. -/
theorem emitAcc_some {g : List Word} {s : Sentence} (h : emitAcc? g = some s) :
    ∃ a t, g = a :: t ∧ s.start_time = a.start ∧
      s.end_time = (t.getLastD a).end_ := by
  cases g with
  | nil => simp [emitAcc?] at h
  | cons a t =>
    rw [emitAcc?] at h
    by_cases hs : pyStrip (normalize_spacing (accumText (a :: t))) = []
    · rw [if_pos hs] at h
      cases h
    · rw [if_neg hs] at h
      obtain rfl := Option.some.inj h
      exact ⟨a, t, rfl, rfl, rfl⟩

/-- C4 as stated is false: without a sortedness assumption the segmenter can
emit a sentence whose start time exceeds its end time, even though every
word satisfies start <= end. -/
theorem C4_counterexample :
    (∀ w ∈ ([⟨cs ("x"), 5, 6⟩, ⟨cs ("y"), 0, 1⟩] : List Word),
        w.start ≤ w.end_) ∧
    ¬ (∀ s ∈ words_to_sentences [⟨cs ("x"), 5, 6⟩, ⟨cs ("y"), 0, 1⟩] 10 80,
        s.start_time ≤ s.end_time) := by
  constructor
  · with_unfolding_all decide
  · with_unfolding_all decide

/-- C4 amended: for every word list that is sorted by `(start, end)` — as the
pipeline guarantees before segmentation — and in which every word satisfies
start <= end, every emitted sentence has `start_time <= end_time` and
consecutive sentences have non-decreasing start times. -/
theorem C4_monotone_timing (ws : List Word) (gt : ℚ) (mc : ℤ)
    (hse : ∀ w ∈ ws, w.start ≤ w.end_) (hsort : List.Sorted wordLE ws) :
    (∀ s ∈ words_to_sentences ws gt mc, s.start_time ≤ s.end_time) ∧
    List.Chain' (fun a b => a.start_time ≤ b.start_time)
      (words_to_sentences ws gt mc) := by
  have hrepr : words_to_sentences ws gt mc =
      (wtsGroups gt mc [] ws).filterMap emitAcc? := by
    cases ws with
    | nil => rfl
    | cons w r => exact wtsGo_eq_filterMap gt mc (w :: r) []
  have hflt : (wtsGroups gt mc [] ws).flatten = ws := by
    simpa using wtsGroups_flatten gt mc ws []
  have hpw : List.Pairwise wordLE ((wtsGroups gt mc [] ws).flatten) := by
    rw [hflt]
    exact hsort
  rw [List.pairwise_flatten] at hpw
  obtain ⟨hin, hcross⟩ := hpw
  constructor
  · intro s hs
    rw [hrepr] at hs
    obtain ⟨g, hgG, hg⟩ := List.mem_filterMap.mp hs
    obtain ⟨a, t, rfl, h1, h2⟩ := emitAcc_some hg
    rw [h1, h2]
    have hlast : t.getLastD a ∈ a :: t := getLastD_mem t a
    have hmemws : ∀ x, x ∈ (a :: t) → x ∈ ws := fun x hx => by
      rw [← hflt]
      exact List.mem_flatten.mpr ⟨a :: t, hgG, hx⟩
    have hlastse := hse (t.getLastD a) (hmemws _ hlast)
    rcases List.mem_cons.mp hlast with he | ht
    · rw [he]
      exact hse a (hmemws a (List.mem_cons_self a t))
    · have hle : wordLE a (t.getLastD a) :=
        (List.pairwise_cons.mp (hin _ hgG)).1 _ ht
      exact le_trans (wordLE_start hle) hlastse
  · rw [hrepr]
    apply List.Pairwise.chain'
    rw [List.pairwise_filterMap]
    refine hcross.imp ?_
    intro g h hc s hsm s' hsm'
    obtain ⟨a, t, rfl, h1, _⟩ := emitAcc_some hsm
    obtain ⟨b, u, rfl, h1', _⟩ := emitAcc_some hsm'
    rw [h1, h1']
    exact wordLE_start (hc a (by simp) b (by simp))

/-- Witness for C4 at a concrete sorted two-word input. -/
theorem C4_monotone_timing_witness :
    (∀ w ∈ ([⟨cs ("Hi"), 0, 1⟩, ⟨cs ("."), 1, 2⟩] : List Word),
        w.start ≤ w.end_) ∧
    List.Sorted wordLE [⟨cs ("Hi"), 0, 1⟩, ⟨cs ("."), 1, 2⟩] ∧
    ((∀ s ∈ words_to_sentences [⟨cs ("Hi"), 0, 1⟩, ⟨cs ("."), 1, 2⟩] 5 80,
        s.start_time ≤ s.end_time) ∧
      List.Chain' (fun a b => a.start_time ≤ b.start_time)
        (words_to_sentences [⟨cs ("Hi"), 0, 1⟩, ⟨cs ("."), 1, 2⟩] 5 80)) :=
  ⟨by with_unfolding_all decide, by with_unfolding_all decide,
    C4_monotone_timing [⟨cs ("Hi"), 0, 1⟩, ⟨cs ("."), 1, 2⟩] 5 80
      (by with_unfolding_all decide) (by with_unfolding_all decide)⟩

/-- Source: `getLast?` of a non-empty list, through `getLastD`. -/
theorem getLast?_cons_eq (t : List Word) (a : Word) :
    (a :: t).getLast? = some (t.getLastD a) := by
  induction t generalizing a with
  | nil => rfl
  | cons b t' ih =>
    rw [List.getLast?_cons_cons, List.getLastD_cons]
    exact ih b

/-- On a non-empty accumulator the fallible close never raises and agrees
with the total close. -/
theorem emitAccChecked_eq (acc : List Word) (h : acc ≠ []) :
    emitAccChecked acc = some (emitAcc? acc).toList := by
  cases acc with
  | nil => exact absurd rfl h
  | cons a t =>
    rw [emitAccChecked, emitAcc?]
    rw [List.head?_cons, getLast?_cons_eq]
    by_cases hs : pyStrip (normalize_spacing (accumText (a :: t))) = [] <;>
      simp [hs]

/-- The fallible accumulation loop never raises and agrees with the total
loop. -/
theorem wtsGoOpt_eq (gt : ℚ) (mc : ℤ) :
    ∀ rest acc, wtsGoOpt gt mc acc rest = some (wtsGo gt mc acc rest) := by
  intro rest
  induction rest with
  | nil =>
    intro acc
    rw [wtsGoOpt, wtsGo]
    by_cases h : acc.isEmpty
    · rw [if_pos h, List.isEmpty_iff.mp h]
      rfl
    · rw [if_neg h, emitAccChecked_eq acc (fun hne => h (by simp [hne]))]
  | cons w rest ih =>
    intro acc
    rw [wtsGoOpt, wtsGo]
    split
    · rw [emitAccChecked_eq (acc ++ [w]) (by simp), ih []]
      rfl
    · exact ih (acc ++ [w])

/-- C8: the segmenter is total and non-raising: the empty word list yields
the empty sentence list (not an error), and on every word list whose words
satisfy start <= end the fallible embedding (list indexing returning
`none` on error) reaches no error branch and agrees with the total
function. -/
theorem C8_total_no_raise (ws : List Word) (gt : ℚ) (mc : ℤ)
    (h : ∀ w ∈ ws, w.start ≤ w.end_) :
    words_to_sentences ([] : List Word) gt mc = [] ∧
    words_to_sentences_opt ws gt mc = some (words_to_sentences ws gt mc) := by
  refine ⟨rfl, ?_⟩
  cases ws with
  | nil => rfl
  | cons w r => exact wtsGoOpt_eq gt mc (w :: r) []

/-- Witness for C8 at a concrete input. -/
theorem C8_total_no_raise_witness :
    (∀ w ∈ ([⟨cs ("Hi"), 0, 1⟩, ⟨cs ("."), 1, 2⟩] : List Word),
        w.start ≤ w.end_) ∧
    (words_to_sentences ([] : List Word) 5 80 = [] ∧
      words_to_sentences_opt [⟨cs ("Hi"), 0, 1⟩, ⟨cs ("."), 1, 2⟩] 5 80 =
        some (words_to_sentences [⟨cs ("Hi"), 0, 1⟩, ⟨cs ("."), 1, 2⟩] 5 80)) :=
  ⟨by with_unfolding_all decide,
    C8_total_no_raise [⟨cs ("Hi"), 0, 1⟩, ⟨cs ("."), 1, 2⟩] 5 80
      (by with_unfolding_all decide)⟩

/-- Characters of the CJK punctuation group are not whitespace. -/
theorem cjkPunct_not_space : ∀ c ∈ cjkPunct, isSpace c = false := by decide

/-- The head of a collapsed string starting with a non-space character. -/
theorem collapseWs_head (c : Char) (rest : List Char) (h : isSpace c = false) :
    (collapseWs (c :: rest)).head? = some c := by
  cases rest with
  | nil =>
    rw [collapseWs, if_neg (by simp [h])]
    rfl
  | cons r rs =>
    rw [collapseWs, if_neg (by simp [h]), if_neg (by simp [h])]
    rfl

/-- The first substitution leaves only single ASCII spaces: every whitespace
character of the output is a space and no two are adjacent. -/
theorem collapseWs_normal (l : List Char) :
    SpacesAreSP (collapseWs l) ∧ NoTwoSpaces (collapseWs l) := by
  induction l with
  | nil =>
    exact ⟨fun c hc => by simp [collapseWs] at hc, List.chain'_nil⟩
  | cons c1 tail ih =>
    cases tail with
    | nil =>
      rw [collapseWs]
      by_cases h : isSpace c1 = true
      · rw [if_pos h]
        exact ⟨fun c hc _ => List.mem_singleton.mp hc,
          List.chain'_singleton _⟩
      · rw [if_neg h]
        refine ⟨fun c hc hsp => ?_, List.chain'_singleton _⟩
        rw [List.mem_singleton.mp hc] at hsp
        exact absurd hsp (by simpa using h)
    | cons c2 rest =>
      obtain ⟨ihSP, ihN2⟩ := ih
      rw [collapseWs]
      by_cases h12 : isSpace c1 && isSpace c2
      · rw [if_pos h12]
        exact ⟨ihSP, ihN2⟩
      · rw [if_neg h12]
        constructor
        · intro c hc hsp
          rcases List.mem_cons.mp hc with he | ht
          · subst he
            by_cases h1 : isSpace c1 = true
            · simp [h1]
            · rw [if_neg h1] at hsp ⊢
              exact absurd hsp (by simpa using h1)
          · exact ihSP c ht hsp
        · rw [NoTwoSpaces, List.chain'_cons']
          refine ⟨?_, ihN2⟩
          intro y hy
          by_cases h1 : isSpace c1 = true
          · have h2 : isSpace c2 = false := by
              cases hsp2 : isSpace c2
              · rfl
              · exact absurd (by simp [h1, hsp2]) h12
            rw [collapseWs_head c2 rest h2] at hy
            obtain rfl : c2 = y := Option.some.inj (Option.mem_def.mp hy)
            exact fun hcon => absurd hcon.2 (by simp [h2])
          · rw [if_neg h1]
            exact fun hcon => absurd hcon.1 (by simpa using h1)

/-- The head of `dropWhile isSpace` is not a space. -/
theorem dropWhile_head_not_space (l : List Char) :
    ∀ c, ((l.dropWhile isSpace).head? = some c) → isSpace c = false := by
  induction l with
  | nil => intro c hc; simp at hc
  | cons a t ih =>
    intro c hc
    rw [List.dropWhile_cons] at hc
    by_cases ha : isSpace a = true
    · rw [if_pos ha] at hc
      exact ih c hc
    · rw [if_neg ha] at hc
      rw [List.head?_cons] at hc
      obtain rfl := Option.some.inj hc
      simpa using ha

/-- Source: `dropWhile` is the identity when the head does not satisfy the
predicate. -/
theorem dropWhile_eq_self_of_head (l : List Char)
    (h : ∀ c, l.head? = some c → isSpace c = false) :
    l.dropWhile isSpace = l := by
  cases l with
  | nil => rfl
  | cons a t =>
    rw [List.dropWhile_cons, if_neg (by simp [h a rfl])]

/-- Stripping only removes characters. -/
theorem pyStrip_mem (l : List Char) : ∀ x ∈ pyStrip l, x ∈ l := by
  intro x hx
  rw [pyStrip, rstrip, lstrip] at hx
  rw [List.mem_reverse] at hx
  have h1 := (List.dropWhile_sublist (l := (l.dropWhile isSpace).reverse)
    (p := isSpace)).mem hx
  rw [List.mem_reverse] at h1
  exact (List.dropWhile_sublist (l := l) (p := isSpace)).mem h1

/-- Stripping preserves the absence of adjacent spaces. -/
theorem pyStrip_N2 (l : List Char) (h : NoTwoSpaces l) :
    NoTwoSpaces (pyStrip l) := by
  rw [NoTwoSpaces] at h ⊢
  rw [pyStrip, rstrip, lstrip]
  have h1 : List.Chain' (fun a b => ¬(isSpace a = true ∧ isSpace b = true))
      (l.dropWhile isSpace) := by
    have := List.takeWhile_append_dropWhile (p := isSpace) (l := l)
    rw [← this] at h
    exact h.right_of_append
  have h2 : List.Chain' (fun a b => ¬(isSpace a = true ∧ isSpace b = true))
      ((l.dropWhile isSpace).reverse) := by
    rw [List.chain'_reverse]
    exact h1.imp (fun {a b} hab hcon => hab ⟨hcon.2, hcon.1⟩)
  have h3 : List.Chain' (fun a b => ¬(isSpace a = true ∧ isSpace b = true))
      (((l.dropWhile isSpace).reverse).dropWhile isSpace) := by
    have := List.takeWhile_append_dropWhile (p := isSpace)
      (l := (l.dropWhile isSpace).reverse)
    rw [← this] at h2
    exact h2.right_of_append
  rw [List.chain'_reverse]
  exact h3.imp (fun {a b} hab hcon => hab ⟨hcon.2, hcon.1⟩)

/-- The last element of `dropWhile` is the last element of the list. -/
theorem getLast?_dropWhile_eq (x : List Char) (c : Char)
    (h : (x.dropWhile isSpace).getLast? = some c) : x.getLast? = some c := by
  have hne : x.dropWhile isSpace ≠ [] := by
    intro hnil
    rw [hnil] at h
    simp at h
  conv_lhs => rw [← List.takeWhile_append_dropWhile (p := isSpace) (l := x)]
  rw [List.getLast?_append_of_ne_nil _ hne]
  exact h

/-- The head of a stripped string is not a space. -/
theorem pyStrip_head (l : List Char) :
    ∀ c, (pyStrip l).head? = some c → isSpace c = false := by
  intro c hc
  rw [pyStrip, rstrip, List.head?_reverse] at hc
  have h2 := getLast?_dropWhile_eq _ c hc
  rw [List.getLast?_reverse] at h2
  exact dropWhile_head_not_space l c h2

/-- The last character of a stripped string is not a space. -/
theorem pyStrip_last (l : List Char) :
    ∀ c, (pyStrip l).getLast? = some c → isSpace c = false := by
  intro c hc
  rw [pyStrip, rstrip, List.getLast?_reverse] at hc
  exact dropWhile_head_not_space _ c hc

/-- The first substitution is the identity on its own normal forms. -/
theorem collapseWs_eq_self (l : List Char) (hSP : SpacesAreSP l)
    (hN2 : NoTwoSpaces l) : collapseWs l = l := by
  induction l with
  | nil => rfl
  | cons c1 tail ih =>
    have hc1 : (if isSpace c1 = true then ' ' else c1) = c1 := by
      by_cases h : isSpace c1 = true
      · rw [if_pos h, hSP c1 (by simp) h]
      · rw [if_neg h]
    cases tail with
    | nil =>
      rw [collapseWs]
      by_cases h : isSpace c1 = true
      · rw [if_pos h, hSP c1 (by simp) h]
      · rw [if_neg h]
    | cons c2 rest =>
      rw [NoTwoSpaces, List.chain'_cons] at hN2
      have h12 : ¬(isSpace c1 && isSpace c2) = true := by
        intro hcon
        rw [Bool.and_eq_true] at hcon
        exact hN2.1 hcon
      rw [collapseWs, if_neg h12, hc1]
      rw [ih (fun c hc hsp => hSP c (List.mem_cons_of_mem c1 hc) hsp) hN2.2]

/-- Stripping is the identity when both ends are not spaces. -/
theorem pyStrip_eq_self (l : List Char)
    (hh : ∀ c, l.head? = some c → isSpace c = false)
    (hl : ∀ c, l.getLast? = some c → isSpace c = false) :
    pyStrip l = l := by
  rw [pyStrip, lstrip, dropWhile_eq_self_of_head l hh, rstrip]
  rw [dropWhile_eq_self_of_head l.reverse
    (fun c hc => hl c (by rwa [List.head?_reverse] at hc))]
  exact List.reverse_reverse l

/-- Tail of a no-two-spaces string. -/
theorem NoTwoSpaces_tail {c : Char} {rest : List Char}
    (h : NoTwoSpaces (c :: rest)) : NoTwoSpaces rest := by
  rw [NoTwoSpaces] at h ⊢
  exact h.tail

/-- Tail of a no-space-before-punctuation string. -/
theorem NoSpaceBeforePunct_tail {c : Char} {rest : List Char}
    (h : NoSpaceBeforePunct (c :: rest)) : NoSpaceBeforePunct rest := by
  rw [NoSpaceBeforePunct] at h ⊢
  exact h.tail

/-- An all-whitespace string trivially has no space before punctuation. -/
theorem NB_of_all_space (m : List Char) (h : ∀ c ∈ m, isSpace c = true) :
    NoSpaceBeforePunct m := by
  induction m with
  | nil => exact List.chain'_nil
  | cons a t ih =>
    rw [NoSpaceBeforePunct, List.chain'_cons']
    refine ⟨?_, ih (fun c hc => h c (List.mem_cons_of_mem a hc))⟩
    intro y hy hcon
    have hyt : y ∈ t := List.mem_of_mem_head? (Option.mem_def.mpr hy)
    have := h y (List.mem_cons_of_mem a hyt)
    rw [cjkPunct_not_space y hcon.2] at this
    exact absurd this (by simp)

/-- The second substitution only deletes characters. -/
theorem rmSpGo_mem : ∀ (l p : List Char), ∀ x ∈ rmSpGo p l,
    x ∈ p.reverse ++ l := by
  intro l
  induction l with
  | nil =>
    intro p x hx
    rw [rmSpGo] at hx
    simpa using hx
  | cons c rest ih =>
    intro p x hx
    rw [rmSpGo] at hx
    by_cases hs : isSpace c = true
    · rw [if_pos hs] at hx
      have := ih (c :: p) x hx
      rw [List.reverse_cons, List.append_assoc] at this
      simpa using this
    · rw [if_neg hs] at hx
      by_cases hp : c ∈ cjkPunct
      · rw [if_pos hp] at hx
        rcases List.mem_cons.mp hx with he | ht
        · subst he
          exact List.mem_append_right _ (List.mem_cons_self _ _)
        · have := ih [] x ht
          simp only [List.reverse_nil, List.nil_append] at this
          exact List.mem_append_right _ (List.mem_cons_of_mem _ this)
      · rw [if_neg hp] at hx
        rcases List.mem_append.mp hx with hl | hr
        · exact List.mem_append_left _ hl
        · rcases List.mem_cons.mp hr with he | ht
          · subst he
            exact List.mem_append_right _ (List.mem_cons_self _ _)
          · have := ih [] x ht
            simp only [List.reverse_nil, List.nil_append] at this
            exact List.mem_append_right _ (List.mem_cons_of_mem _ this)

/-- The second substitution returns a non-empty string unless everything is
empty. -/
theorem rmSpGo_ne_nil : ∀ (l p : List Char), p ≠ [] ∨ l ≠ [] →
    rmSpGo p l ≠ [] := by
  intro l
  induction l with
  | nil =>
    intro p h
    rw [rmSpGo]
    rcases h with h | h
    · simpa using h
    · exact absurd rfl h
  | cons c rest ih =>
    intro p h
    rw [rmSpGo]
    by_cases hs : isSpace c = true
    · rw [if_pos hs]
      exact ih (c :: p) (Or.inl (by simp))
    · rw [if_neg hs]
      by_cases hp : c ∈ cjkPunct
      · rw [if_pos hp]
        simp
      · rw [if_neg hp]
        simp

/-- The second substitution preserves the absence of adjacent spaces. -/
theorem rmSpGo_N2 : ∀ (l p : List Char),
    NoTwoSpaces (p.reverse ++ l) → NoTwoSpaces (rmSpGo p l) := by
  intro l
  induction l with
  | nil =>
    intro p h
    rw [rmSpGo]
    rw [NoTwoSpaces] at h ⊢
    simpa using h
  | cons c rest ih =>
    intro p h
    rw [rmSpGo]
    by_cases hs : isSpace c = true
    · rw [if_pos hs]
      apply ih (c :: p)
      rw [List.reverse_cons, List.append_assoc]
      simpa using h
    · rw [if_neg hs]
      have hrest : NoTwoSpaces rest := by
        rw [NoTwoSpaces] at h
        exact h.right_of_append.tail
      by_cases hp : c ∈ cjkPunct
      · rw [if_pos hp]
        rw [NoTwoSpaces, List.chain'_cons']
        exact ⟨fun y _ hcon => absurd hcon.1 (by simp [hs]), ih [] hrest⟩
      · rw [if_neg hp]
        rw [NoTwoSpaces, List.chain'_append]
        refine ⟨?_, ?_, ?_⟩
        · rw [NoTwoSpaces] at h
          exact h.left_of_append
        · rw [List.chain'_cons']
          exact ⟨fun y _ hcon => absurd hcon.1 (by simp [hs]), ih [] hrest⟩
        · intro x hx y hy
          rw [List.head?_cons] at hy
          obtain rfl : c = y := Option.some.inj (Option.mem_def.mp hy)
          rw [NoTwoSpaces, List.chain'_append] at h
          exact h.2.2 x hx c (by rw [List.head?_cons]; rfl)

/-- The second substitution establishes: no space precedes CJK terminal
punctuation in its output. -/
theorem rmSpGo_NB : ∀ (l p : List Char), (∀ c ∈ p, isSpace c = true) →
    NoSpaceBeforePunct (rmSpGo p l) := by
  intro l
  induction l with
  | nil =>
    intro p hp
    rw [rmSpGo]
    exact NB_of_all_space _ (fun c hc => hp c (List.mem_reverse.mp hc))
  | cons c rest ih =>
    intro p hp
    rw [rmSpGo]
    by_cases hs : isSpace c = true
    · rw [if_pos hs]
      refine ih (c :: p) ?_
      intro x hx
      rcases List.mem_cons.mp hx with he | ht
      · rw [he]
        exact hs
      · exact hp x ht
    · rw [if_neg hs]
      by_cases hpc : c ∈ cjkPunct
      · rw [if_pos hpc]
        rw [NoSpaceBeforePunct, List.chain'_cons']
        refine ⟨fun y _ hcon => ?_, ih [] (by simp)⟩
        rw [cjkPunct_not_space c hpc] at hcon
        exact absurd hcon.1 (by simp)
      · rw [if_neg hpc]
        rw [NoSpaceBeforePunct, List.chain'_append]
        refine ⟨?_, ?_, ?_⟩
        · exact NB_of_all_space _ (fun x hx => hp x (List.mem_reverse.mp hx))
        · rw [List.chain'_cons']
          refine ⟨fun y _ hcon => absurd hcon.1 (by simp [hs]), ?_⟩
          have := ih [] (by simp)
          rw [NoSpaceBeforePunct] at this
          exact this
        · intro x _ y hy
          rw [List.head?_cons] at hy
          obtain rfl : c = y := Option.some.inj (Option.mem_def.mp hy)
          exact fun hcon => absurd hcon.2 hpc

/-- The second substitution keeps a non-space head character. -/
theorem rmSpGo_head_eq (c : Char) (rest : List Char) (hs : isSpace c = false) :
    (rmSpGo [] (c :: rest)).head? = some c := by
  rw [rmSpGo, if_neg (by simp [hs])]
  by_cases hp : c ∈ cjkPunct
  · rw [if_pos hp]
    rfl
  · rw [if_neg hp]
    rfl

/-- The second substitution keeps a non-space last character. -/
theorem rmSpGo_getLast : ∀ (l p : List Char) (c : Char),
    (p.reverse ++ l).getLast? = some c → isSpace c = false →
    (rmSpGo p l).getLast? = some c := by
  intro l
  induction l with
  | nil =>
    intro p c h hc
    rw [rmSpGo]
    simpa using h
  | cons a rest ih =>
    intro p c h hc
    rw [rmSpGo]
    by_cases hs : isSpace a = true
    · rw [if_pos hs]
      refine ih (a :: p) c ?_ hc
      rw [List.reverse_cons, List.append_assoc]
      simpa using h
    · rw [if_neg hs]
      cases rest with
      | nil =>
        have ha : c = a := by
          rw [List.getLast?_append_of_ne_nil _ (by simp)] at h
          exact (Option.some.inj h).symm
        subst ha
        by_cases hp : c ∈ cjkPunct
        · rw [if_pos hp]
          rw [rmSpGo]
          rfl
        · rw [if_neg hp]
          rw [rmSpGo]
          rw [List.getLast?_append_of_ne_nil _ (by simp)]
          rfl
      | cons r rs =>
        have hlast : ((r :: rs) : List Char).getLast? = some c := by
          rw [List.getLast?_append_of_ne_nil _ (by simp)] at h
          rwa [List.getLast?_cons_cons] at h
        have hne : rmSpGo [] (r :: rs) ≠ [] :=
          rmSpGo_ne_nil (r :: rs) [] (Or.inr (by simp))
        have hrec : (rmSpGo [] (r :: rs)).getLast? = some c :=
          ih [] c (by simpa using hlast) hc
        by_cases hp : a ∈ cjkPunct
        · rw [if_pos hp]
          rw [show a :: rmSpGo [] (r :: rs) = [a] ++ rmSpGo [] (r :: rs)
            from rfl]
          rw [List.getLast?_append_of_ne_nil _ hne]
          exact hrec
        · rw [if_neg hp]
          rw [show p.reverse ++ a :: rmSpGo [] (r :: rs) =
            (p.reverse ++ [a]) ++ rmSpGo [] (r :: rs) from by
              rw [List.append_assoc]; rfl]
          rw [List.getLast?_append_of_ne_nil _ hne]
          exact hrec

/-- The second substitution is the identity when there is no space-run
before punctuation (given no two adjacent spaces). -/
theorem rmSpGo_eq_self : ∀ l : List Char, NoTwoSpaces l →
    NoSpaceBeforePunct l → rmSpGo [] l = l := by
  intro l
  induction l with
  | nil => intro _ _; rfl
  | cons c rest ih =>
    intro hN2 hNB
    rw [rmSpGo]
    by_cases hs : isSpace c = true
    · rw [if_pos hs]
      cases rest with
      | nil => rfl
      | cons c2 rs =>
        have h2 : isSpace c2 = false := by
          rw [NoTwoSpaces, List.chain'_cons] at hN2
          cases h2 : isSpace c2
          · rfl
          · exact absurd ⟨hs, h2⟩ hN2.1
        have h2p : c2 ∉ cjkPunct := by
          rw [NoSpaceBeforePunct, List.chain'_cons] at hNB
          exact fun hmem => hNB.1 ⟨hs, hmem⟩
        have hih := ih (NoTwoSpaces_tail hN2) (NoSpaceBeforePunct_tail hNB)
        rw [rmSpGo, if_neg (by simp [h2]), if_neg h2p] at hih
        simp only [List.reverse_nil, List.nil_append, List.cons.injEq,
          true_and] at hih
        rw [rmSpGo, if_neg (by simp [h2]), if_neg h2p]
        simp [hih]
    · rw [if_neg hs]
      by_cases hp : c ∈ cjkPunct
      · rw [if_pos hp, ih (NoTwoSpaces_tail hN2) (NoSpaceBeforePunct_tail hNB)]
      · rw [if_neg hp, ih (NoTwoSpaces_tail hN2) (NoSpaceBeforePunct_tail hNB)]
        rfl

/-- Source: `normalize_spacing` is idempotent. -/
theorem normalize_spacing_idem (s : List Char) :
    normalize_spacing (normalize_spacing s) = normalize_spacing s := by
  have hM := collapseWs_normal s
  set M := pyStrip (collapseWs s) with hMdef
  have hM_SP : SpacesAreSP M := fun c hc hsp => hM.1 c (pyStrip_mem _ c hc) hsp
  have hM_N2 : NoTwoSpaces M := pyStrip_N2 _ hM.2
  have hN_SP : SpacesAreSP (rmSpGo [] M) := fun c hc hsp =>
    hM_SP c (by simpa using rmSpGo_mem M [] c hc) hsp
  have hN_N2 : NoTwoSpaces (rmSpGo [] M) :=
    rmSpGo_N2 M [] (by simpa using hM_N2)
  have hN_NB : NoSpaceBeforePunct (rmSpGo [] M) := rmSpGo_NB M [] (by simp)
  have hN_head : ∀ c, (rmSpGo [] M).head? = some c → isSpace c = false := by
    intro c hc
    cases hMc : M with
    | nil =>
      rw [hMc] at hc
      rw [rmSpGo] at hc
      simp at hc
    | cons c0 t =>
      have h0 : isSpace c0 = false := by
        refine pyStrip_head (collapseWs s) c0 ?_
        rw [← hMdef, hMc]
        rfl
      rw [hMc, rmSpGo_head_eq c0 t h0] at hc
      obtain rfl := Option.some.inj hc
      exact h0
  have hN_last : ∀ c, (rmSpGo [] M).getLast? = some c → isSpace c = false := by
    intro c hc
    cases hMc : M with
    | nil =>
      rw [hMc] at hc
      rw [rmSpGo] at hc
      simp at hc
    | cons c0 t =>
      obtain ⟨z, hz⟩ : ∃ z, (c0 :: t).getLast? = some z := by
        cases hgl : (c0 :: t).getLast? with
        | none => exact absurd hgl (by simp)
        | some z => exact ⟨z, rfl⟩
      have hzns : isSpace z = false := by
        refine pyStrip_last (collapseWs s) z ?_
        rw [← hMdef, hMc]
        exact hz
      rw [hMc] at hc
      have hkeep := rmSpGo_getLast (c0 :: t) [] z (by simpa using hz) hzns
      rw [hkeep] at hc
      obtain rfl := Option.some.inj hc
      exact hzns
  have h1 : normalize_spacing s = rmSpGo [] M := by
    rw [normalize_spacing, rmSpBefore]
  rw [h1, normalize_spacing]
  rw [collapseWs_eq_self _ hN_SP hN_N2]
  rw [pyStrip_eq_self _ hN_head hN_last]
  rw [rmSpBefore]
  exact rmSpGo_eq_self _ hN_N2 hN_NB

/-- An emitted sentence's text is produced by `normalize_spacing`. -/
theorem emitAcc_some_text {g : List Word} {s : Sentence}
    (h : emitAcc? g = some s) : ∃ u, s.text = normalize_spacing u := by
  cases g with
  | nil => simp [emitAcc?] at h
  | cons a t =>
    rw [emitAcc?] at h
    by_cases hs : pyStrip (normalize_spacing (accumText (a :: t))) = []
    · rw [if_pos hs] at h
      cases h
    · rw [if_neg hs] at h
      obtain rfl := Option.some.inj h
      exact ⟨accumText (a :: t), rfl⟩

/-- C9: `normalize_spacing` is idempotent, and consequently every emitted
sentence's text is a fixpoint of `normalize_spacing` (no leading or trailing
whitespace, no whitespace runs, no space before CJK terminal
punctuation). -/
theorem C9_normalize_idempotent :
    (∀ s : List Char,
      normalize_spacing (normalize_spacing s) = normalize_spacing s) ∧
    (∀ (ws : List Word) (gt : ℚ) (mc : ℤ),
      ∀ sent ∈ words_to_sentences ws gt mc,
        normalize_spacing sent.text = sent.text) := by
  refine ⟨normalize_spacing_idem, ?_⟩
  intro ws gt mc sent hs
  have hrepr : words_to_sentences ws gt mc =
      (wtsGroups gt mc [] ws).filterMap emitAcc? := by
    cases ws with
    | nil => rfl
    | cons w r => exact wtsGo_eq_filterMap gt mc (w :: r) []
  rw [hrepr] at hs
  obtain ⟨g, _, hg⟩ := List.mem_filterMap.mp hs
  obtain ⟨u, hu⟩ := emitAcc_some_text hg
  rw [hu]
  exact normalize_spacing_idem u

/-- Witness for C9 at a concrete sentence of a concrete run. -/
theorem C9_normalize_idempotent_witness :
    (⟨cs ("Hi."), 0, 2⟩ : Sentence) ∈
      words_to_sentences [⟨cs ("Hi"), 0, 1⟩, ⟨cs ("."), 1, 2⟩] 5 80 ∧
    normalize_spacing (⟨cs ("Hi."), 0, 2⟩ : Sentence).text =
      (⟨cs ("Hi."), 0, 2⟩ : Sentence).text :=
  ⟨by with_unfolding_all decide,
    C9_normalize_idempotent.2 [⟨cs ("Hi"), 0, 1⟩, ⟨cs ("."), 1, 2⟩] 5 80 _
      (by with_unfolding_all decide)⟩
